import Mathlib

/-!
# Battery meter display (`p2-code/batt_update.c`)

A shallow embedding of the three functions of `batt_update.c`:

* `set_batt_from_ports`   reads the voltage and status ports and fills a `batt_t`;
* `set_display_from_batt` turns a `batt_t` into the bit pattern of the display;
* `batt_update`           composes the two and writes the display port.

`batt.h` (the declaration of `batt_t` and of the three ports) is not among the
sources.  The record fields and the ports are modelled as mathematical
integers; C `/` and `%` are `Int.tdiv` and `Int.tmod` (truncation toward zero),
`|` and `&` are `Int.lor` and `Int.land` (bitwise, negative values read in
twos-complement), `<<` is `<<<`.
A read of the ten-entry array `digits` outside `0..9` is undefined behaviour
in C and makes the model return `none`.
-/

/-! ## Data model -/

/-- The battery record `batt_t`: the three fields the code reads and writes. -/
structure batt_t where
  mlvolts : Int
  percent : Int
  mode : Int
deriving DecidableEq, Repr

/-- The three global ports the code accesses. -/
structure Ports where
  BATT_VOLTAGE_PORT : Int
  BATT_STATUS_PORT : Int
  BATT_DISPLAY_PORT : Int
deriving DecidableEq, Repr

/-! ## `set_batt_from_ports` -/

/-- Model of `int set_batt_from_ports(batt_t *batt)`: the returned pair is the return
value and the record `*batt` after the call; the ports are only read. -/
def set_batt_from_ports (p : Ports) (batt : batt_t) : Int × batt_t :=
  if p.BATT_VOLTAGE_PORT < 0 then
    (1, batt)
  else
    let batt : batt_t := { batt with mlvolts := Int.tdiv p.BATT_VOLTAGE_PORT 2 }
    let batt : batt_t := { batt with percent := Int.tdiv (batt.mlvolts - 3000) 8 }
    let batt : batt_t := if batt.mlvolts < 3000 then { batt with percent := 0 } else batt
    let batt : batt_t := if batt.mlvolts > 3800 then { batt with percent := 100 } else batt
    let batt : batt_t :=
      if Int.land p.BATT_STATUS_PORT (1 <<< (2 : Int)) ≠ 0 then { batt with mode := 2 }
      else { batt with mode := 1 }
    (0, batt)

/-! ## `set_display_from_batt` -/

/-- The initial contents of the local array `int digits[10]`. -/
def digits_init : List Int :=
  [0b0111111, 0b0000110, 0b1011011, 0b1001111, 0b1100110,
   0b1101101, 0b1111101, 0b0000111, 0b1111111, 0b1101111]

/-- The array read `digits[i]`: defined only for an index inside the array. -/
def index (digits : List Int) (i : Int) : Option Int :=
  if 0 ≤ i then digits[i.toNat]? else none

/-- Model of `int set_display_from_batt(batt_t batt, int *display)`: the returned pair is
the return value and `*display` after the call, `none` when an array read is
out of bounds.  The statements are taken in source order. -/
def set_display_from_batt (batt : batt_t) (_display : Int) : Option (Int × Int) := do
  let digits := digits_init
  let display : Int := 0
  let display ←
    if batt.mode = 1 then do
      let g ← index digits (Int.tmod (Int.tdiv (batt.mlvolts + 5) 10) 10)
      let display := Int.lor display g
      let g ← index digits (Int.tmod (Int.tdiv batt.mlvolts 100) 10)
      let display := Int.lor display (g <<< (7 : Int))
      let g ← index digits (Int.tmod (Int.tdiv batt.mlvolts 1000) 10)
      let display := Int.lor display (g <<< (14 : Int))
      let display := Int.lor display (1 <<< (22 : Int))
      let display := Int.lor display (1 <<< (23 : Int))
      pure display
    else do
      let g ← index digits (Int.tmod batt.percent 10)
      let display := Int.lor display g
      let digits := digits.set 0 (0b0111111 * Int.tdiv batt.percent 100)
      let g ← index digits (Int.tmod (Int.tdiv batt.percent 10) 10)
      let display := Int.lor display (g <<< (7 : Int))
      let g ← index digits (Int.tmod (Int.tdiv batt.percent 100) 10)
      let display := Int.lor display (g <<< (14 : Int))
      let display := Int.lor display (1 <<< (21 : Int))
      pure display
  let display := if batt.percent > 4 then Int.lor display (1 <<< (24 : Int)) else display
  let display := if batt.percent > 29 then Int.lor display (1 <<< (25 : Int)) else display
  let display := if batt.percent > 49 then Int.lor display (1 <<< (26 : Int)) else display
  let display := if batt.percent > 69 then Int.lor display (1 <<< (27 : Int)) else display
  let display := if batt.percent > 89 then Int.lor display (1 <<< (28 : Int)) else display
  pure (0, display)

/-! ## `batt_update` -/

/-- Model of `int batt_update()`: the returned pair is the return value and the ports
after the call. -/
def batt_update (p : Ports) : Option (Int × Ports) :=
  let batt : batt_t := ⟨0, 0, 0⟩
  let (r, batt) := set_batt_from_ports p batt
  if r ≠ 0 then
    some (1, p)
  else do
    let (_, display) ← set_display_from_batt batt p.BATT_DISPLAY_PORT
    pure (0, { p with BATT_DISPLAY_PORT := display })

/-! ## Auxiliary definitions used in the proofs -/

/-- One bar statement `if (c) display |= 1 << k;` as a function of the pattern so far. -/
def or_if (c : Prop) [Decidable c] (display : Int) (k : Int) : Int :=
  if c then Int.lor display (1 <<< k) else display

/-- The five bar statements of `set_display_from_batt`, in source order. -/
def add_bars (percent : Int) (display : Int) : Int :=
  or_if (percent > 89) (or_if (percent > 69) (or_if (percent > 49)
    (or_if (percent > 29) (or_if (percent > 4) display 24) 25) 26) 27) 28

/-- The bar bits as a sum of powers of two. -/
def bar_bits (percent : Int) : Int :=
  (if percent > 4 then 2 ^ 24 else 0) + (if percent > 29 then 2 ^ 25 else 0) +
  (if percent > 49 then 2 ^ 26 else 0) + (if percent > 69 then 2 ^ 27 else 0) +
  (if percent > 89 then 2 ^ 28 else 0)

/-- The array `digits` after the assignment to `digits[0]` in percent mode. -/
def digits_percent (percent : Int) : List Int :=
  digits_init.set 0 (0b0111111 * Int.tdiv percent 100)

/-- The number of lit bars of a pattern: how many of bits 24-28 are set. -/
def lit_bars (pat : Int) : Nat :=
  (if pat.testBit 24 then 1 else 0) + (if pat.testBit 25 then 1 else 0) +
  (if pat.testBit 26 then 1 else 0) + (if pat.testBit 27 then 1 else 0) +
  (if pat.testBit 28 then 1 else 0)

/-! ## Lemmas -/

/-- The body of `set_display_from_batt` with the bar statements folded into `add_bars`. -/
theorem set_display_from_batt_eq (b : batt_t) (d : Int) :
    set_display_from_batt b d =
      if b.mode = 1 then
        (index digits_init (Int.tmod (Int.tdiv (b.mlvolts + 5) 10) 10)).bind fun r =>
        (index digits_init (Int.tmod (Int.tdiv b.mlvolts 100) 10)).bind fun c =>
        (index digits_init (Int.tmod (Int.tdiv b.mlvolts 1000) 10)).bind fun l =>
          some ((0 : Int), add_bars b.percent
            (Int.lor (Int.lor (Int.lor (Int.lor (Int.lor 0 r) (c <<< (7 : Int)))
              (l <<< (14 : Int))) (1 <<< (22 : Int))) (1 <<< (23 : Int))))
      else
        (index digits_init (Int.tmod b.percent 10)).bind fun r =>
        (index (digits_percent b.percent) (Int.tmod (Int.tdiv b.percent 10) 10)).bind fun c =>
        (index (digits_percent b.percent) (Int.tmod (Int.tdiv b.percent 100) 10)).bind fun l =>
          some ((0 : Int), add_bars b.percent
            (Int.lor (Int.lor (Int.lor (Int.lor 0 r) (c <<< (7 : Int)))
              (l <<< (14 : Int))) (1 <<< (21 : Int)))) := by
  unfold set_display_from_batt add_bars or_if digits_percent
  by_cases h : b.mode = 1
  · simp only [h, if_true]; rfl
  · simp only [h, if_false]; rfl

theorem set_display_from_batt_prior (b : batt_t) (d1 d2 : Int) :
    set_display_from_batt b d1 = set_display_from_batt b d2 := by
  rw [set_display_from_batt_eq b d1, set_display_from_batt_eq b d2]

theorem lor_disjoint (x y : Int) (k : Nat) (hx0 : 0 ≤ x) (hxk : x < 2 ^ k) (hy : 0 ≤ y) :
    Int.lor x (y * 2 ^ k) = x + y * 2 ^ k := by
  obtain ⟨a, rfl⟩ := Int.eq_ofNat_of_zero_le hx0
  obtain ⟨b, rfl⟩ := Int.eq_ofNat_of_zero_le hy
  have ha : a < 2 ^ k := by exact_mod_cast hxk
  have h1 : ((b : Int) * 2 ^ k) = ((2 ^ k * b : Nat) : Int) := by push_cast; ring
  rw [h1]
  show ((a ||| (2 ^ k * b) : Nat) : Int) = _
  rw [Nat.lor_comm, ← Nat.mul_add_lt_is_or ha b]
  push_cast; ring

theorem shl_eq (g : Int) (k : Nat) : g <<< (k : Int) = g * 2 ^ k := by
  rw [Int.shiftLeft_eq_mul_pow]; push_cast; rfl

theorem lor_shl (x g : Int) (k : Nat) (hx0 : 0 ≤ x) (hxk : x < 2 ^ k) (hg : 0 ≤ g) :
    Int.lor x (g <<< (k : Int)) = x + g * 2 ^ k := by
  rw [shl_eq, lor_disjoint x g k hx0 hxk hg]

theorem or_if_eq (c : Prop) [Decidable c] (x : Int) (k : Nat) (hx0 : 0 ≤ x) (hxk : x < 2 ^ k) :
    or_if c x (k : Int) = x + (if c then 2 ^ k else 0) := by
  unfold or_if
  split_ifs
  · rw [lor_shl x 1 k hx0 hxk (by decide), one_mul]
  · simp

theorem add_bars_eq (p x : Int) (hx0 : 0 ≤ x) (hx : x < 2 ^ 24) :
    add_bars p x = x + bar_bits p := by
  unfold add_bars bar_bits
  have e1 := or_if_eq (p > 4) x 24 hx0 hx
  have b1 : 0 ≤ x + (if p > 4 then (2:Int) ^ 24 else 0) ∧ x + (if p > 4 then (2:Int) ^ 24 else 0) < 2 ^ 25 := by
    split_ifs <;> constructor <;> omega
  have e2 := or_if_eq (p > 29) _ 25 b1.1 b1.2
  have b2 : 0 ≤ x + (if p > 4 then (2:Int) ^ 24 else 0) + (if p > 29 then (2:Int) ^ 25 else 0) ∧ x + (if p > 4 then (2:Int) ^ 24 else 0) + (if p > 29 then (2:Int) ^ 25 else 0) < 2 ^ 26 := by
    split_ifs <;> constructor <;> omega
  have e3 := or_if_eq (p > 49) _ 26 b2.1 b2.2
  have b3 : 0 ≤ x + (if p > 4 then (2:Int) ^ 24 else 0) + (if p > 29 then (2:Int) ^ 25 else 0) + (if p > 49 then (2:Int) ^ 26 else 0) ∧ x + (if p > 4 then (2:Int) ^ 24 else 0) + (if p > 29 then (2:Int) ^ 25 else 0) + (if p > 49 then (2:Int) ^ 26 else 0) < 2 ^ 27 := by
    split_ifs <;> constructor <;> omega
  have e4 := or_if_eq (p > 69) _ 27 b3.1 b3.2
  have b4 : 0 ≤ x + (if p > 4 then (2:Int) ^ 24 else 0) + (if p > 29 then (2:Int) ^ 25 else 0) + (if p > 49 then (2:Int) ^ 26 else 0) + (if p > 69 then (2:Int) ^ 27 else 0) ∧ x + (if p > 4 then (2:Int) ^ 24 else 0) + (if p > 29 then (2:Int) ^ 25 else 0) + (if p > 49 then (2:Int) ^ 26 else 0) + (if p > 69 then (2:Int) ^ 27 else 0) < 2 ^ 28 := by
    split_ifs <;> constructor <;> omega
  have e5 := or_if_eq (p > 89) _ 28 b4.1 b4.2
  simp only [Nat.cast_ofNat] at e1 e2 e3 e4 e5
  rw [e1, e2, e3, e4, e5]
  ring

theorem c_div_mod (x k : Int) (hx : 0 ≤ x) (hk : 0 < k) :
    Int.tmod (Int.tdiv x k) 10 = x / k % 10 := by
  rw [Int.tdiv_eq_ediv hx (le_of_lt hk),
    Int.tmod_eq_emod (Int.ediv_nonneg hx (le_of_lt hk)) (by decide)]

theorem index_digits (i : Int) (h0 : 0 ≤ i) (h9 : i < 10) :
    ∃ g, index digits_init i = some g ∧ 0 ≤ g ∧ g < 2 ^ 7 := by
  interval_cases i <;> exact ⟨_, rfl, by decide, by decide⟩

theorem lor_zero_left (x : Int) (hx : 0 ≤ x) : Int.lor 0 x = x := by
  have := lor_disjoint 0 x 0 (le_refl 0) (by decide) hx
  simpa using this

theorem testBit_iff (x : Int) (k : Nat) (hx : 0 ≤ x) :
    x.testBit k = true ↔ x / 2 ^ k % 2 = 1 := by
  obtain ⟨n, rfl⟩ := Int.eq_ofNat_of_zero_le hx
  show Nat.testBit n k = true ↔ _
  rw [Nat.testBit_to_div_mod]
  simp only [decide_eq_true_eq]
  norm_cast

theorem volts_form (b : batt_t) (d : Int) (hmode : b.mode = 1) (hm : 0 ≤ b.mlvolts) :
    ∃ r c l : Int,
      index digits_init ((b.mlvolts + 5) / 10 % 10) = some r ∧
      index digits_init (b.mlvolts / 100 % 10) = some c ∧
      index digits_init (b.mlvolts / 1000 % 10) = some l ∧
      (0 ≤ r ∧ r < 2 ^ 7) ∧ (0 ≤ c ∧ c < 2 ^ 7) ∧ (0 ≤ l ∧ l < 2 ^ 7) ∧
      set_display_from_batt b d =
        some (0, r + c * 2 ^ 7 + l * 2 ^ 14 + 2 ^ 22 + 2 ^ 23 + bar_bits b.percent) := by
  obtain ⟨r, hr, hr0, hr1⟩ := index_digits ((b.mlvolts + 5) / 10 % 10) (by omega) (by omega)
  obtain ⟨c, hc, hc0, hc1⟩ := index_digits (b.mlvolts / 100 % 10) (by omega) (by omega)
  obtain ⟨l, hl, hl0, hl1⟩ := index_digits (b.mlvolts / 1000 % 10) (by omega) (by omega)
  refine ⟨r, c, l, hr, hc, hl, ⟨hr0, hr1⟩, ⟨hc0, hc1⟩, ⟨hl0, hl1⟩, ?_⟩
  rw [set_display_from_batt_eq, if_pos hmode, c_div_mod _ _ (by omega) (by decide),
    c_div_mod _ _ hm (by decide), c_div_mod _ _ hm (by decide), hr, hc, hl]
  simp only [Option.some_bind]
  have e7 := lor_shl r c 7 hr0 hr1 hc0
  have e14 := lor_shl (r + c * 2 ^ 7) l 14 (by omega) (by omega) hl0
  have e22 := lor_shl (r + c * 2 ^ 7 + l * 2 ^ 14) 1 22 (by omega) (by omega) (by decide)
  have e23 := lor_shl (r + c * 2 ^ 7 + l * 2 ^ 14 + 1 * 2 ^ 22) 1 23 (by omega) (by omega)
    (by decide)
  simp only [Nat.cast_ofNat] at e7 e14 e22 e23
  rw [lor_zero_left r hr0, e7, e14, e22, e23, add_bars_eq _ _ (by omega) (by omega)]
  simp only [one_mul]

theorem index_digits_percent (p i : Int) (h0 : 0 ≤ i) (h9 : i < 10) :
    index (digits_percent p) i =
      if i = 0 then some (0b0111111 * Int.tdiv p 100) else index digits_init i := by
  interval_cases i <;> rfl

theorem percent_form (b : batt_t) (d : Int) (hmode : b.mode ≠ 1)
    (h0 : 0 ≤ b.percent) (h100 : b.percent ≤ 100) :
    ∃ r c : Int,
      index digits_init (b.percent % 10) = some r ∧
      index digits_init (b.percent / 10 % 10) = some c ∧
      (0 ≤ r ∧ r < 2 ^ 7) ∧ (0 ≤ c ∧ c < 2 ^ 7) ∧
      set_display_from_batt b d =
        some (0, r + (if b.percent < 10 then 0 else c) * 2 ^ 7 +
          (if b.percent = 100 then 0b0000110 else 0) * 2 ^ 14 + 2 ^ 21 + bar_bits b.percent) := by
  obtain ⟨r, hr, hr0, hr1⟩ := index_digits (b.percent % 10) (by omega) (by omega)
  obtain ⟨c, hc, hc0, hc1⟩ := index_digits (b.percent / 10 % 10) (by omega) (by omega)
  refine ⟨r, c, hr, hc, ⟨hr0, hr1⟩, ⟨hc0, hc1⟩, ?_⟩
  have e100 : Int.tdiv b.percent 100 = b.percent / 100 := Int.tdiv_eq_ediv h0 (by decide)
  rw [set_display_from_batt_eq, if_neg hmode, Int.tmod_eq_emod h0 (by decide),
    c_div_mod _ _ h0 (by decide), c_div_mod _ _ h0 (by decide), hr,
    index_digits_percent _ _ (by omega) (by omega),
    index_digits_percent _ _ (by omega) (by omega), e100]
  simp only [Option.some_bind]
  have z : (0 : Int) % 10 = 0 := rfl
  rcases lt_or_le b.percent 10 with h | h
  · have q1 : b.percent / 10 % 10 = 0 := by omega
    have q2 : b.percent / 100 % 10 = 0 := by omega
    have q3 : b.percent / 100 = 0 := by omega
    have q4 : b.percent ≠ 100 := by omega
    simp only [q1, q2, q3, z, if_true, Option.some_bind, if_pos h, if_neg q4, mul_zero, zero_mul,
      add_zero]
    have e7 := lor_shl r 0 7 hr0 hr1 (le_refl 0)
    have e14 := lor_shl r 0 14 hr0 (by omega) (le_refl 0)
    have e21 := lor_shl r 1 21 hr0 (by omega) (by decide)
    simp only [Nat.cast_ofNat, zero_mul, add_zero, one_mul] at e7 e14 e21
    rw [lor_zero_left r hr0, e7, e14, e21, add_bars_eq _ _ (by omega) (by omega)]
  · rcases lt_or_le b.percent 100 with h2 | h2
    · have q1 : b.percent / 10 % 10 ≠ 0 := by omega
      have q2 : b.percent / 100 % 10 = 0 := by omega
      have q3 : b.percent / 100 = 0 := by omega
      have q4 : b.percent ≠ 100 := by omega
      have q5 : ¬ b.percent < 10 := by omega
      simp only [q2, q3, z, if_true, if_neg q1, hc, Option.some_bind, if_neg q5, if_neg q4,
        mul_zero, zero_mul, add_zero]
      have e7 := lor_shl r c 7 hr0 hr1 hc0
      have e14 := lor_shl (r + c * 2 ^ 7) 0 14 (by omega) (by omega) (le_refl 0)
      have e21 := lor_shl (r + c * 2 ^ 7) 1 21 (by omega) (by omega) (by decide)
      simp only [Nat.cast_ofNat, zero_mul, add_zero, one_mul] at e7 e14 e21
      rw [lor_zero_left r hr0, e7, e14, e21, add_bars_eq _ _ (by omega) (by omega)]
    · have q : b.percent = 100 := by omega
      rw [q] at hc ⊢
      have hcv : c = 63 := by
        have : index digits_init (100 / 10 % 10) = some 63 := rfl
        rw [this] at hc
        exact (Option.some.inj hc).symm
      subst hcv
      have e7 := lor_shl r 63 7 hr0 hr1 (by decide)
      have e14 := lor_shl (r + 63 * 2 ^ 7) 6 14 (by omega) (by omega) (by decide)
      have e21 := lor_shl (r + 63 * 2 ^ 7 + 6 * 2 ^ 14) 1 21 (by omega) (by omega) (by decide)
      simp only [Nat.cast_ofNat, one_mul] at e7 e14 e21
      have i1 : ((100 : Int) / 10 % 10 = 0) := by decide
      have i2 : ¬ ((100 : Int) / 100 % 10 = 0) := by decide
      have i3 : index digits_init ((100 : Int) / 100 % 10) = some 6 := rfl
      have i4 : (0b0111111 : Int) * (100 / 100) = 63 := by decide
      have i5 : ¬ ((100 : Int) < 10) := by decide
      simp only [i1, i2, i3, i4, i5, if_true, if_false, Option.some_bind]
      rw [lor_zero_left r hr0, e7, e14, e21, add_bars_eq _ _ (by omega) (by omega)]

/-- The record `set_batt_from_ports` writes for a non-negative voltage reading. -/
theorem set_batt_from_ports_ok (p : Ports) (b : batt_t) (h : 0 ≤ p.BATT_VOLTAGE_PORT) :
    set_batt_from_ports p b =
      (0, ⟨p.BATT_VOLTAGE_PORT / 2,
           if p.BATT_VOLTAGE_PORT / 2 < 3000 then 0
           else if p.BATT_VOLTAGE_PORT / 2 > 3800 then 100
           else (p.BATT_VOLTAGE_PORT / 2 - 3000) / 8,
           if Int.land p.BATT_STATUS_PORT 4 ≠ 0 then 2 else 1⟩) := by
  have h2 : Int.tdiv p.BATT_VOLTAGE_PORT 2 = p.BATT_VOLTAGE_PORT / 2 :=
    Int.tdiv_eq_ediv h (by decide)
  have h4 : (1 : Int) <<< (2 : Int) = 4 := by decide
  unfold set_batt_from_ports
  rw [if_neg (not_lt.mpr h)]
  simp only [h2, h4]
  by_cases h1 : p.BATT_VOLTAGE_PORT / 2 < 3000
  · have h3 : ¬ p.BATT_VOLTAGE_PORT / 2 > 3800 := by omega
    simp only [h1, h3, if_true, if_false]
    split_ifs <;> rfl
  · by_cases h3 : p.BATT_VOLTAGE_PORT / 2 > 3800
    · simp only [h1, h3, if_true, if_false]
      split_ifs <;> rfl
    · have h5 : Int.tdiv (p.BATT_VOLTAGE_PORT / 2 - 3000) 8 =
          (p.BATT_VOLTAGE_PORT / 2 - 3000) / 8 := Int.tdiv_eq_ediv (by omega) (by decide)
      simp only [h1, h3, h5, if_false]
      split_ifs <;> rfl

/-- The test `BATT_STATUS_PORT & 1 << 2` reads bit 2 of the status port. -/
theorem land_four (s : Int) : Int.land s 4 = if s.testBit 2 then 4 else 0 := by
  rw [← Int.bit_decomp s, ← Int.bit_decomp s.div2, ← Int.bit_decomp s.div2.div2]
  have h4 : (4 : Int) = Int.bit false (Int.bit false (Int.bit true 0)) := by decide
  rw [h4, Int.land_bit, Int.land_bit, Int.land_bit, Int.testBit_bit_succ, Int.testBit_bit_succ,
    Int.testBit_bit_zero]
  have h0 : ∀ x : Int, Int.land x 0 = 0 := by
    intro x; cases x <;> simp [Int.land, Nat.ldiff]
  rw [h0]
  cases s.div2.div2.bodd <;> simp

theorem status_mode (s : Int) :
    (if Int.land s 4 ≠ 0 then (2 : Int) else 1) = if s.testBit 2 then 2 else 1 := by
  rw [land_four]
  cases s.testBit 2 <;> simp

/-! ## The orchestrator `batt_update` -/

/-- The encoder succeeds on every record the converter produces, with a pattern
that depends neither on the prior record nor on any prior display value. -/
theorem encoder_after_converter (v s : Int) (hv : 0 ≤ v) :
    ∃ pat : Int, ∀ d d0 : Int, ∀ b0 : batt_t,
      set_display_from_batt (set_batt_from_ports ⟨v, s, d⟩ b0).2 d0 = some (0, pat) := by
  have key : ∀ d b0, set_batt_from_ports ⟨v, s, d⟩ b0 = set_batt_from_ports ⟨v, s, 0⟩ ⟨0, 0, 0⟩ := by
    intro d b0
    rw [set_batt_from_ports_ok ⟨v, s, d⟩ b0 hv, set_batt_from_ports_ok ⟨v, s, 0⟩ ⟨0, 0, 0⟩ hv]
  have hrec := set_batt_from_ports_ok ⟨v, s, 0⟩ ⟨0, 0, 0⟩ hv
  by_cases hm : (set_batt_from_ports ⟨v, s, 0⟩ ⟨0, 0, 0⟩).2.mode = 1
  · obtain ⟨r, c, l, -, -, -, -, -, -, h⟩ :=
      volts_form (set_batt_from_ports ⟨v, s, 0⟩ ⟨0, 0, 0⟩).2 0 hm
        (by rw [hrec]; show 0 ≤ v / 2; omega)
    exact ⟨_, fun d d0 b0 => by rw [key d b0, set_display_from_batt_prior _ d0 0]; exact h⟩
  · obtain ⟨r, c, -, -, -, -, h⟩ :=
      percent_form (set_batt_from_ports ⟨v, s, 0⟩ ⟨0, 0, 0⟩).2 0 hm
        (by rw [hrec]; show 0 ≤ ite _ _ _; split_ifs <;> omega)
        (by rw [hrec]; show ite _ _ _ ≤ (100 : Int); split_ifs <;> omega)
    exact ⟨_, fun d d0 b0 => by rw [key d b0, set_display_from_batt_prior _ d0 0]; exact h⟩

/-- C1. Wiring fault at the orchestrator: when the voltage port is negative,
`batt_update` returns 1 and the display port keeps its prior value `d`; the
voltage and status ports are unchanged as well. -/
theorem batt_update_wiring_fault (v s d : Int) (hv : v < 0) :
    batt_update ⟨v, s, d⟩ = some (1, ⟨v, s, d⟩) := by
  have h : set_batt_from_ports ⟨v, s, d⟩ ⟨0, 0, 0⟩ = (1, ⟨0, 0, 0⟩) := by
    unfold set_batt_from_ports
    rw [if_pos hv]
  unfold batt_update
  simp only [h]
  rfl

theorem batt_update_wiring_fault_witness :
    (-1 : Int) < 0 ∧ batt_update ⟨-1, 4, 12345⟩ = some (1, ⟨-1, 4, 12345⟩) :=
  ⟨by decide, batt_update_wiring_fault (-1) 4 12345 (by decide)⟩

/-- C2. Successful update: for a voltage reading `v ≥ 0` there is one pattern
`pat`, the one `set_display_from_batt` produces for the record
`set_batt_from_ports` derives from `(v, s)`, such that for every prior display
value `d` the call `batt_update` returns 0 and leaves the display port equal
to `pat`, with the voltage and status ports unchanged. -/
theorem batt_update_success (v s : Int) (hv : 0 ≤ v) :
    ∃ pat : Int,
      (∀ d d0 : Int, ∀ b0 : batt_t,
        set_display_from_batt (set_batt_from_ports ⟨v, s, d⟩ b0).2 d0 = some (0, pat)) ∧
      (∀ d : Int, batt_update ⟨v, s, d⟩ = some (0, ⟨v, s, pat⟩)) := by
  obtain ⟨pat, hpat⟩ := encoder_after_converter v s hv
  refine ⟨pat, hpat, fun d => ?_⟩
  have h1 := set_batt_from_ports_ok ⟨v, s, d⟩ ⟨0, 0, 0⟩ hv
  have h2 := hpat d d ⟨0, 0, 0⟩
  rw [h1] at h2
  unfold batt_update
  simp only [h1]
  simp only [ne_eq, not_true_eq_false, if_false]
  simp only [h2]
  rfl

theorem batt_update_success_witness :
    ∃ pat : Int,
      (∀ d d0 : Int, ∀ b0 : batt_t,
        set_display_from_batt (set_batt_from_ports ⟨7600, 0, d⟩ b0).2 d0 = some (0, pat)) ∧
      (∀ d : Int, batt_update ⟨7600, 0, d⟩ = some (0, ⟨7600, 0, pat⟩)) :=
  batt_update_success 7600 0 (by decide)

/-! ## The converter `set_batt_from_ports` -/

/-- C3. Wiring fault at the converter: when the voltage port is negative,
`set_batt_from_ports` returns 1 and the record (all three fields) is what it was
before the call; it returns 1 only when the voltage port is negative, and
returns 0 for every non-negative reading. -/
theorem set_batt_from_ports_wiring_fault (v s d : Int) (b : batt_t) :
    (v < 0 → set_batt_from_ports ⟨v, s, d⟩ b = (1, b)) ∧
    ((set_batt_from_ports ⟨v, s, d⟩ b).1 = 1 ↔ v < 0) ∧
    (0 ≤ v → (set_batt_from_ports ⟨v, s, d⟩ b).1 = 0) := by
  have hneg : v < 0 → set_batt_from_ports ⟨v, s, d⟩ b = (1, b) := by
    intro hv
    unfold set_batt_from_ports
    rw [if_pos hv]
  have hpos : 0 ≤ v → (set_batt_from_ports ⟨v, s, d⟩ b).1 = 0 := by
    intro hv
    rw [set_batt_from_ports_ok ⟨v, s, d⟩ b hv]
  refine ⟨hneg, ⟨fun h => ?_, fun hv => by rw [hneg hv]⟩, hpos⟩
  by_contra hv
  rw [hpos (not_lt.mp hv)] at h
  exact absurd h (by decide)

theorem set_batt_from_ports_wiring_fault_witness :
    set_batt_from_ports ⟨-1, 4, 7⟩ ⟨3700, 87, 2⟩ = (1, ⟨3700, 87, 2⟩) :=
  (set_batt_from_ports_wiring_fault (-1) 4 7 ⟨3700, 87, 2⟩).1 (by decide)

/-- C4. Conversion formula: for a voltage reading `v ≥ 0`, `set_batt_from_ports`
returns 0 and sets `mlvolts = v / 2`, `percent = 0` if `mlvolts < 3000`,
`percent = 100` if `mlvolts > 3800` and `percent = (mlvolts - 3000) / 8`
otherwise; the resulting record is the same for every prior record. -/
theorem set_batt_from_ports_conversion (v s d : Int) (b : batt_t) (hv : 0 ≤ v) :
    (set_batt_from_ports ⟨v, s, d⟩ b).1 = 0 ∧
    (set_batt_from_ports ⟨v, s, d⟩ b).2.mlvolts = v / 2 ∧
    (set_batt_from_ports ⟨v, s, d⟩ b).2.percent =
      (if v / 2 < 3000 then 0 else if v / 2 > 3800 then 100 else (v / 2 - 3000) / 8) ∧
    (∀ b0 : batt_t, set_batt_from_ports ⟨v, s, d⟩ b0 = set_batt_from_ports ⟨v, s, d⟩ b) := by
  have h := set_batt_from_ports_ok ⟨v, s, d⟩ b hv
  refine ⟨by rw [h], by rw [h], by rw [h], fun b0 => ?_⟩
  rw [h, set_batt_from_ports_ok ⟨v, s, d⟩ b0 hv]

theorem set_batt_from_ports_conversion_witness :
    (set_batt_from_ports ⟨7301, 0, 0⟩ ⟨1, 2, 3⟩).1 = 0 ∧
    (set_batt_from_ports ⟨7301, 0, 0⟩ ⟨1, 2, 3⟩).2.mlvolts = 7301 / 2 ∧
    (set_batt_from_ports ⟨7301, 0, 0⟩ ⟨1, 2, 3⟩).2.percent =
      (if (7301 : Int) / 2 < 3000 then 0 else if (7301 : Int) / 2 > 3800 then 100
        else ((7301 : Int) / 2 - 3000) / 8) ∧
    (∀ b0 : batt_t,
      set_batt_from_ports ⟨7301, 0, 0⟩ b0 = set_batt_from_ports ⟨7301, 0, 0⟩ ⟨1, 2, 3⟩) :=
  set_batt_from_ports_conversion 7301 0 0 ⟨1, 2, 3⟩ (by decide)

/-- C5. Percent range: for every voltage reading `v ≥ 0` and every status value,
the percent field produced by `set_batt_from_ports` lies in `0..100`. -/
theorem set_batt_from_ports_percent_range (v s d : Int) (b : batt_t) (hv : 0 ≤ v) :
    0 ≤ (set_batt_from_ports ⟨v, s, d⟩ b).2.percent ∧
    (set_batt_from_ports ⟨v, s, d⟩ b).2.percent ≤ 100 := by
  rw [set_batt_from_ports_ok ⟨v, s, d⟩ b hv]
  show 0 ≤ ite _ _ _ ∧ ite _ _ _ ≤ (100 : Int)
  constructor <;> split_ifs <;> omega

theorem set_batt_from_ports_percent_range_witness :
    0 ≤ (set_batt_from_ports ⟨7599, 4, 0⟩ ⟨0, 0, 0⟩).2.percent ∧
    (set_batt_from_ports ⟨7599, 4, 0⟩ ⟨0, 0, 0⟩).2.percent ≤ 100 :=
  set_batt_from_ports_percent_range 7599 4 0 ⟨0, 0, 0⟩ (by decide)

/-- C6. Mode selection: for `v ≥ 0`, `set_batt_from_ports` sets `mode = 2` when
bit 2 of the status port is set and `mode = 1` otherwise, so the mode is one of
the two valid values; two status values that agree on bit 2 give identical
records, and `mlvolts` and `percent` are the same for every status value. -/
theorem set_batt_from_ports_mode (v s d : Int) (b : batt_t) (hv : 0 ≤ v) :
    (set_batt_from_ports ⟨v, s, d⟩ b).2.mode = (if s.testBit 2 then 2 else 1) ∧
    ((set_batt_from_ports ⟨v, s, d⟩ b).2.mode = 1 ∨
      (set_batt_from_ports ⟨v, s, d⟩ b).2.mode = 2) ∧
    (∀ s0 : Int, s0.testBit 2 = s.testBit 2 →
      set_batt_from_ports ⟨v, s0, d⟩ b = set_batt_from_ports ⟨v, s, d⟩ b) ∧
    (∀ s0 : Int,
      (set_batt_from_ports ⟨v, s0, d⟩ b).2.mlvolts = (set_batt_from_ports ⟨v, s, d⟩ b).2.mlvolts ∧
      (set_batt_from_ports ⟨v, s0, d⟩ b).2.percent =
        (set_batt_from_ports ⟨v, s, d⟩ b).2.percent) := by
  have h := fun s0 => set_batt_from_ports_ok ⟨v, s0, d⟩ b hv
  have hmode : (set_batt_from_ports ⟨v, s, d⟩ b).2.mode = (if s.testBit 2 then 2 else 1) := by
    rw [h s]
    exact status_mode s
  refine ⟨hmode, ?_, fun s0 hs => ?_, fun s0 => ?_⟩
  · rw [hmode]
    cases s.testBit 2
    · left; rfl
    · right; rfl
  · rw [h s0, h s]
    show (_, batt_t.mk _ _ (if Int.land s0 4 ≠ 0 then 2 else 1)) =
      (_, batt_t.mk _ _ (if Int.land s 4 ≠ 0 then 2 else 1))
    rw [status_mode s0, status_mode s, hs]
  · rw [h s0, h s]
    exact ⟨rfl, rfl⟩

theorem set_batt_from_ports_mode_witness :
    (set_batt_from_ports ⟨6000, -4, 0⟩ ⟨0, 0, 0⟩).2.mode = (if (-4 : Int).testBit 2 then 2 else 1) ∧
    ((set_batt_from_ports ⟨6000, -4, 0⟩ ⟨0, 0, 0⟩).2.mode = 1 ∨
      (set_batt_from_ports ⟨6000, -4, 0⟩ ⟨0, 0, 0⟩).2.mode = 2) ∧
    (∀ s0 : Int, s0.testBit 2 = (-4 : Int).testBit 2 →
      set_batt_from_ports ⟨6000, s0, 0⟩ ⟨0, 0, 0⟩ = set_batt_from_ports ⟨6000, -4, 0⟩ ⟨0, 0, 0⟩) ∧
    (∀ s0 : Int,
      (set_batt_from_ports ⟨6000, s0, 0⟩ ⟨0, 0, 0⟩).2.mlvolts =
        (set_batt_from_ports ⟨6000, -4, 0⟩ ⟨0, 0, 0⟩).2.mlvolts ∧
      (set_batt_from_ports ⟨6000, s0, 0⟩ ⟨0, 0, 0⟩).2.percent =
        (set_batt_from_ports ⟨6000, -4, 0⟩ ⟨0, 0, 0⟩).2.percent) :=
  set_batt_from_ports_mode 6000 (-4) 0 ⟨0, 0, 0⟩ (by decide)

/-! ## The encoder `set_display_from_batt` -/

theorem bar_bits_nonneg (p : Int) : 0 ≤ bar_bits p ∧ bar_bits p < 2 ^ 29 ∧ bar_bits p % 2 ^ 24 = 0 := by
  unfold bar_bits
  split_ifs <;> omega

theorem testBit_false_iff (x : Int) (k : Nat) (hx : 0 ≤ x) :
    x.testBit k = false ↔ x / 2 ^ k % 2 = 0 := by
  rw [← Bool.not_eq_true, testBit_iff x k hx]
  omega

/-- The five bar bits of a pattern whose lower part stays below bit 24. -/
theorem bar_bits_testBit (x p : Int) (hx0 : 0 ≤ x) (hx : x < 2 ^ 24) :
    ((x + bar_bits p).testBit 24 = true ↔ p > 4) ∧
    ((x + bar_bits p).testBit 25 = true ↔ p > 29) ∧
    ((x + bar_bits p).testBit 26 = true ↔ p > 49) ∧
    ((x + bar_bits p).testBit 27 = true ↔ p > 69) ∧
    ((x + bar_bits p).testBit 28 = true ↔ p > 89) := by
  have h := bar_bits_nonneg p
  rw [testBit_iff _ _ (by omega), testBit_iff _ _ (by omega), testBit_iff _ _ (by omega),
    testBit_iff _ _ (by omega), testBit_iff _ _ (by omega)]
  unfold bar_bits
  split_ifs <;> omega

/-- C7. VOLTS-mode encoding: for a record with `mode = 1` and `mlvolts ≥ 0` the
pattern written by `set_display_from_batt` has bits 0-6 equal to the table glyph
of `((mlvolts + 5) / 10) % 10`, bits 7-13 equal to the glyph of
`(mlvolts / 100) % 10`, bits 14-20 equal to the glyph of `(mlvolts / 1000) % 10`,
bits 22 and 23 set and bit 21 clear.  Example: voltage 7600 with status 0 gives
`mlvolts = 3800`, `percent = 100`, and the pattern holds the glyphs of 3, 8, 0
(left, center, right), the volts and decimal-point bits and all five bars. -/
theorem set_display_from_batt_volts (b : batt_t) (d : Int)
    (hmode : b.mode = 1) (hm : 0 ≤ b.mlvolts) :
    (∃ r c l pat : Int,
      index digits_init ((b.mlvolts + 5) / 10 % 10) = some r ∧
      index digits_init (b.mlvolts / 100 % 10) = some c ∧
      index digits_init (b.mlvolts / 1000 % 10) = some l ∧
      set_display_from_batt b d = some (0, pat) ∧
      pat % 2 ^ 7 = r ∧ pat / 2 ^ 7 % 2 ^ 7 = c ∧ pat / 2 ^ 14 % 2 ^ 7 = l ∧
      pat.testBit 22 = true ∧ pat.testBit 23 = true ∧ pat.testBit 21 = false) ∧
    (set_batt_from_ports ⟨7600, 0, 0⟩ ⟨0, 0, 0⟩ = (0, ⟨3800, 100, 1⟩) ∧
      index digits_init 3 = some 0b1001111 ∧
      index digits_init 8 = some 0b1111111 ∧
      index digits_init 0 = some 0b0111111 ∧
      batt_update ⟨7600, 0, 0⟩ =
        some (0, ⟨7600, 0, 0b0111111 + 0b1111111 * 2 ^ 7 + 0b1001111 * 2 ^ 14 + 2 ^ 22 + 2 ^ 23 +
          (2 ^ 24 + 2 ^ 25 + 2 ^ 26 + 2 ^ 27 + 2 ^ 28)⟩)) := by
  refine ⟨?_, by decide, by decide, by decide, by decide, by decide⟩
  obtain ⟨r, c, l, hr, hc, hl, ⟨hr0, hr1⟩, ⟨hc0, hc1⟩, ⟨hl0, hl1⟩, h⟩ := volts_form b d hmode hm
  have hb := bar_bits_nonneg b.percent
  refine ⟨r, c, l, _, hr, hc, hl, h, ?_, ?_, ?_, ?_, ?_, ?_⟩
  · omega
  · omega
  · omega
  · rw [testBit_iff _ _ (by omega)]; omega
  · rw [testBit_iff _ _ (by omega)]; omega
  · rw [testBit_false_iff _ _ (by omega)]; omega

theorem set_display_from_batt_volts_witness :
    ∃ r c l pat : Int,
      index digits_init (((3800 : Int) + 5) / 10 % 10) = some r ∧
      index digits_init ((3800 : Int) / 100 % 10) = some c ∧
      index digits_init ((3800 : Int) / 1000 % 10) = some l ∧
      set_display_from_batt ⟨3800, 100, 1⟩ 0 = some (0, pat) ∧
      pat % 2 ^ 7 = r ∧ pat / 2 ^ 7 % 2 ^ 7 = c ∧ pat / 2 ^ 14 % 2 ^ 7 = l ∧
      pat.testBit 22 = true ∧ pat.testBit 23 = true ∧ pat.testBit 21 = false :=
  (set_display_from_batt_volts ⟨3800, 100, 1⟩ 0 (by decide) (by decide)).1

/-- C8. PERCENT-mode right digit, left digit and indicator: for a record with
`mode = 2` and `0 ≤ percent ≤ 100` the pattern written by
`set_display_from_batt` has bits 0-6 equal to the table glyph of `percent % 10`
(the glyph of 0 when that digit is 0, never a blank), bits 14-20 all zero when
`percent / 100 = 0` and equal to the glyph of 1 when `percent = 100`, bit 21
set, and bits 22 and 23 clear. -/
theorem set_display_from_batt_percent (b : batt_t) (d : Int)
    (hmode : b.mode = 2) (h0 : 0 ≤ b.percent) (h100 : b.percent ≤ 100) :
    ∃ r pat : Int,
      index digits_init (b.percent % 10) = some r ∧
      set_display_from_batt b d = some (0, pat) ∧
      pat % 2 ^ 7 = r ∧ r ≠ 0 ∧
      (b.percent % 10 = 0 → pat % 2 ^ 7 = 0b0111111) ∧
      (b.percent / 100 = 0 → pat / 2 ^ 14 % 2 ^ 7 = 0) ∧
      (b.percent = 100 → index digits_init 1 = some (pat / 2 ^ 14 % 2 ^ 7)) ∧
      pat.testBit 21 = true ∧ pat.testBit 22 = false ∧ pat.testBit 23 = false := by
  have hne : b.mode ≠ 1 := by rw [hmode]; decide
  obtain ⟨r, c, hr, hc, ⟨hr0, hr1⟩, ⟨hc0, hc1⟩, h⟩ := percent_form b d hne h0 h100
  have hb := bar_bits_nonneg b.percent
  have hrne : r ≠ 0 := by
    have h9 : 0 ≤ b.percent % 10 ∧ b.percent % 10 < 10 := by omega
    revert hr
    generalize b.percent % 10 = i at h9
    obtain ⟨i0, i9⟩ := h9
    interval_cases i <;> intro hr <;> rw [← Option.some.inj hr] <;> decide
  have hcc : 0 ≤ (if b.percent < 10 then 0 else c) ∧ (if b.percent < 10 then 0 else c) < 2 ^ 7 := by
    split_ifs <;> omega
  have hll : (if b.percent = 100 then (0b0000110 : Int) else 0) =
      if b.percent = 100 then 6 else 0 := rfl
  rw [hll] at h
  have hl6 : 0 ≤ (if b.percent = 100 then (6 : Int) else 0) ∧
      (if b.percent = 100 then (6 : Int) else 0) < 2 ^ 7 := by
    split_ifs <;> omega
  refine ⟨r, _, hr, h, ?_, hrne, ?_, ?_, ?_, ?_, ?_, ?_⟩
  · omega
  · intro hz
    rw [hz] at hr
    have : r = 0b0111111 := (Option.some.inj hr).symm
    rw [← this]
    omega
  · intro hz
    have : b.percent ≠ 100 := by omega
    rw [if_neg this] at h hl6 ⊢
    omega
  · intro hz
    rw [if_pos hz] at h hl6 ⊢
    have e : (r + (if b.percent < 10 then 0 else c) * 2 ^ 7 + 6 * 2 ^ 14 + 2 ^ 21 +
        bar_bits b.percent) / 2 ^ 14 % 2 ^ 7 = 6 := by omega
    rw [e]
    rfl
  · rw [testBit_iff _ _ (by omega)]; omega
  · rw [testBit_false_iff _ _ (by omega)]; omega
  · rw [testBit_false_iff _ _ (by omega)]; omega

theorem set_display_from_batt_percent_witness :
    ∃ r pat : Int,
      index digits_init ((100 : Int) % 10) = some r ∧
      set_display_from_batt ⟨3800, 100, 2⟩ 0 = some (0, pat) ∧
      pat % 2 ^ 7 = r ∧ r ≠ 0 ∧
      ((100 : Int) % 10 = 0 → pat % 2 ^ 7 = 0b0111111) ∧
      ((100 : Int) / 100 = 0 → pat / 2 ^ 14 % 2 ^ 7 = 0) ∧
      ((100 : Int) = 100 → index digits_init 1 = some (pat / 2 ^ 14 % 2 ^ 7)) ∧
      pat.testBit 21 = true ∧ pat.testBit 22 = false ∧ pat.testBit 23 = false :=
  set_display_from_batt_percent ⟨3800, 100, 2⟩ 0 (by decide) (by decide) (by decide)

/-- C9, as stated, fails at `percent = 0` in PERCENT mode: the center field of
the pattern is blank, not the glyph of `(0 / 10) % 10 = 0`. -/
theorem set_display_from_batt_center_counterexample :
    ¬ ∃ c pat : Int,
      index digits_init ((0 : Int) / 10 % 10) = some c ∧
      set_display_from_batt ⟨3000, 0, 2⟩ 0 = some (0, pat) ∧
      pat / 2 ^ 7 % 2 ^ 7 = c := by
  rintro ⟨c, pat, hc, hp, h⟩
  have e1 : index digits_init ((0 : Int) / 10 % 10) = some 63 := by decide
  have e2 : set_display_from_batt ⟨3000, 0, 2⟩ 0 = some (0, 2097215) := by decide
  rw [e1] at hc
  rw [e2] at hp
  have h1 : c = 63 := (Option.some.inj hc).symm
  have h2 : pat = 2097215 := (Prod.mk.inj (Option.some.inj hp)).2.symm
  subst h1 h2
  exact absurd h (by decide)

/-- C9, amended. PERCENT-mode center digit: for a record with `mode = 2` and
`0 ≤ percent ≤ 100`, bits 7-13 of the pattern written by `set_display_from_batt`
equal the table glyph of `(percent / 10) % 10` when `percent ≥ 10` and are all
zero (a blank) when `percent < 10`.  Example: voltage 6000 with status 4 gives
`percent = 0`, and the pattern is `glyph(0) | 1 << 21` with no bar bits. -/
theorem set_display_from_batt_center (b : batt_t) (d : Int)
    (hmode : b.mode = 2) (h0 : 0 ≤ b.percent) (h100 : b.percent ≤ 100) :
    (∃ c pat : Int,
      index digits_init (b.percent / 10 % 10) = some c ∧
      set_display_from_batt b d = some (0, pat) ∧
      (10 ≤ b.percent → pat / 2 ^ 7 % 2 ^ 7 = c) ∧
      (b.percent < 10 → pat / 2 ^ 7 % 2 ^ 7 = 0)) ∧
    (set_batt_from_ports ⟨6000, 4, 0⟩ ⟨0, 0, 0⟩ = (0, ⟨3000, 0, 2⟩) ∧
      index digits_init 0 = some 0b0111111 ∧
      batt_update ⟨6000, 4, 0⟩ =
        some (0, ⟨6000, 4, Int.lor 0b0111111 (1 <<< (21 : Int))⟩)) := by
  refine ⟨?_, by decide, by decide, by decide⟩
  have hne : b.mode ≠ 1 := by rw [hmode]; decide
  obtain ⟨r, c, hr, hc, ⟨hr0, hr1⟩, ⟨hc0, hc1⟩, h⟩ := percent_form b d hne h0 h100
  have hb := bar_bits_nonneg b.percent
  have hll : (if b.percent = 100 then (0b0000110 : Int) else 0) =
      if b.percent = 100 then 6 else 0 := rfl
  rw [hll] at h
  have hl6 : 0 ≤ (if b.percent = 100 then (6 : Int) else 0) ∧
      (if b.percent = 100 then (6 : Int) else 0) < 2 ^ 7 := by
    split_ifs <;> omega
  refine ⟨c, _, hc, h, fun h10 => ?_, fun h10 => ?_⟩
  · rw [if_neg (not_lt.mpr h10)]
    omega
  · rw [if_pos h10]
    omega

theorem set_display_from_batt_center_witness :
    ∃ c pat : Int,
      index digits_init ((57 : Int) / 10 % 10) = some c ∧
      set_display_from_batt ⟨3456, 57, 2⟩ 0 = some (0, pat) ∧
      ((10 : Int) ≤ 57 → pat / 2 ^ 7 % 2 ^ 7 = c) ∧
      ((57 : Int) < 10 → pat / 2 ^ 7 % 2 ^ 7 = 0) :=
  (set_display_from_batt_center ⟨3456, 57, 2⟩ 0 (by decide) (by decide) (by decide)).1

theorem index_digits_percent_some (p i : Int) (h0 : 0 ≤ i) (h9 : i < 10) :
    ∃ g, index (digits_percent p) i = some g := by
  rw [index_digits_percent p i h0 h9]
  split_ifs
  · exact ⟨_, rfl⟩
  · obtain ⟨g, hg, -⟩ := index_digits i h0 h9
    exact ⟨g, hg⟩

/-- With `percent > 89` all five bar statements run, whatever the pattern so far. -/
theorem add_bars_high (p x : Int) (hp : 89 < p) :
    (add_bars p x).testBit 24 = true ∧ (add_bars p x).testBit 25 = true ∧
    (add_bars p x).testBit 26 = true ∧ (add_bars p x).testBit 27 = true ∧
    (add_bars p x).testBit 28 = true := by
  have t24 : ((1 : Int) <<< (24 : Int)).testBit 24 = true := by decide
  have t25 : ((1 : Int) <<< (25 : Int)).testBit 25 = true := by decide
  have t26 : ((1 : Int) <<< (26 : Int)).testBit 26 = true := by decide
  have t27 : ((1 : Int) <<< (27 : Int)).testBit 27 = true := by decide
  have t28 : ((1 : Int) <<< (28 : Int)).testBit 28 = true := by decide
  unfold add_bars or_if
  rw [if_pos (show p > 89 by omega), if_pos (show p > 69 by omega),
    if_pos (show p > 49 by omega), if_pos (show p > 29 by omega), if_pos (show p > 4 by omega)]
  simp only [Int.testBit_lor, t24, t25, t26, t27, t28, Bool.or_true, Bool.true_or, and_self]

/-- The encoder succeeds, with the bar bits set by the five thresholds, on every
record in VOLTS mode with `mlvolts ≥ 0` and every record of another mode with
`percent ≥ 0`. -/
theorem bars_in_bounds (b : batt_t) (d : Int)
    (hdom : (b.mode = 1 ∧ 0 ≤ b.mlvolts) ∨ (b.mode ≠ 1 ∧ 0 ≤ b.percent)) :
    ∃ pat : Int,
      set_display_from_batt b d = some (0, pat) ∧
      (pat.testBit 24 = true ↔ b.percent > 4) ∧
      (pat.testBit 25 = true ↔ b.percent > 29) ∧
      (pat.testBit 26 = true ↔ b.percent > 49) ∧
      (pat.testBit 27 = true ↔ b.percent > 69) ∧
      (pat.testBit 28 = true ↔ b.percent > 89) := by
  rcases hdom with ⟨hmode, hm⟩ | ⟨hmode, hp⟩
  · obtain ⟨r, c, l, -, -, -, ⟨hr0, hr1⟩, ⟨hc0, hc1⟩, ⟨hl0, hl1⟩, h⟩ := volts_form b d hmode hm
    exact ⟨_, h, bar_bits_testBit _ b.percent (by omega) (by omega)⟩
  · rcases le_or_lt b.percent 100 with h100 | h100
    · obtain ⟨r, c, -, -, ⟨hr0, hr1⟩, ⟨hc0, hc1⟩, h⟩ := percent_form b d hmode hp h100
      have hcc : 0 ≤ (if b.percent < 10 then 0 else c) ∧
          (if b.percent < 10 then 0 else c) < 2 ^ 7 := by
        split_ifs <;> omega
      have hl6 : 0 ≤ (if b.percent = 100 then (0b0000110 : Int) else 0) ∧
          (if b.percent = 100 then (0b0000110 : Int) else 0) < 2 ^ 7 := by
        split_ifs <;> constructor <;> decide
      exact ⟨_, h, bar_bits_testBit _ b.percent (by omega) (by omega)⟩
    · obtain ⟨r, hr, -⟩ := index_digits (b.percent % 10) (by omega) (by omega)
      obtain ⟨c, hc⟩ := index_digits_percent_some b.percent (b.percent / 10 % 10)
        (by omega) (by omega)
      obtain ⟨l, hl⟩ := index_digits_percent_some b.percent (b.percent / 100 % 10)
        (by omega) (by omega)
      have e : set_display_from_batt b d = some ((0 : Int), add_bars b.percent
          (Int.lor (Int.lor (Int.lor (Int.lor 0 r) (c <<< (7 : Int))) (l <<< (14 : Int)))
            (1 <<< (21 : Int)))) := by
        rw [set_display_from_batt_eq, if_neg hmode, Int.tmod_eq_emod hp (by decide),
          c_div_mod _ _ hp (by decide), c_div_mod _ _ hp (by decide), hr, hc, hl]
        rfl
      obtain ⟨a24, a25, a26, a27, a28⟩ := add_bars_high b.percent
        (Int.lor (Int.lor (Int.lor (Int.lor 0 r) (c <<< (7 : Int))) (l <<< (14 : Int)))
          (1 <<< (21 : Int))) (by omega)
      refine ⟨_, e, ?_, ?_, ?_, ?_, ?_⟩
      · exact ⟨fun _ => by omega, fun _ => a24⟩
      · exact ⟨fun _ => by omega, fun _ => a25⟩
      · exact ⟨fun _ => by omega, fun _ => a26⟩
      · exact ⟨fun _ => by omega, fun _ => a27⟩
      · exact ⟨fun _ => by omega, fun _ => a28⟩

/-- Outside the battery states: with a negative `percent` in PERCENT mode the
read `digits[percent % 10]` leaves the array (`percent = -1`), or the value
stored in `digits[0]` is negative and its shifted copy reaches the bar bits
(`percent = -1000`, bit 24 set).  The theorems on the bar bits do not range over
such records. -/
theorem set_display_from_batt_negative_percent :
    set_display_from_batt ⟨0, -1, 2⟩ 0 = none ∧
    ∃ pat : Int, set_display_from_batt ⟨0, -1000, 2⟩ 0 = some (0, pat) ∧
      pat.testBit 24 = true := by
  refine ⟨by decide, Int.lor (Int.lor (Int.lor (Int.lor 0 0b0111111)
    ((0b0111111 * Int.tdiv (-1000) 100 : Int) <<< (7 : Int)))
    ((0b0111111 * Int.tdiv (-1000) 100 : Int) <<< (14 : Int))) (1 <<< (21 : Int)), ?_, ?_⟩
  · rw [set_display_from_batt_eq]
    rfl
  · simp only [Int.testBit_lor]
    have h : ((0b0111111 * Int.tdiv (-1000) 100 : Int) <<< (7 : Int)).testBit 24 = true := by
      decide
    rw [h]
    simp

theorem index_mem (i g : Int) (h : index digits_init i = some g) : g ∈ digits_init := by
  unfold index at h
  split_ifs at h
  exact List.getElem?_mem h

theorem testBit_high (x : Int) (k : Nat) (hx0 : 0 ≤ x) (hx : x < 2 ^ 29) (hk : 29 ≤ k) :
    x.testBit k = false := by
  obtain ⟨n, rfl⟩ := Int.eq_ofNat_of_zero_le hx0
  show Nat.testBit n k = false
  have hn : n < 2 ^ 29 := by exact_mod_cast hx
  exact Nat.testBit_lt_two_pow (lt_of_lt_of_le hn (Nat.pow_le_pow_right (by decide) hk))

/-- C11. No stray bits: for a record with `0 ≤ percent ≤ 100`, `mlvolts ≥ 0` and
mode 1 or 2, the pattern written by `set_display_from_batt` is non-negative and
below `2 ^ 29`, so every bit from 29 upward is 0, and each of the three 7-bit
digit fields holds either a table glyph or all zeros. -/
theorem set_display_from_batt_no_stray_bits (b : batt_t) (d : Int)
    (hp0 : 0 ≤ b.percent) (hp100 : b.percent ≤ 100) (hm : 0 ≤ b.mlvolts)
    (hmode : b.mode = 1 ∨ b.mode = 2) :
    ∃ pat : Int,
      set_display_from_batt b d = some (0, pat) ∧
      0 ≤ pat ∧ pat < 2 ^ 29 ∧
      (∀ k : Nat, 29 ≤ k → pat.testBit k = false) ∧
      (pat % 2 ^ 7 = 0 ∨ pat % 2 ^ 7 ∈ digits_init) ∧
      (pat / 2 ^ 7 % 2 ^ 7 = 0 ∨ pat / 2 ^ 7 % 2 ^ 7 ∈ digits_init) ∧
      (pat / 2 ^ 14 % 2 ^ 7 = 0 ∨ pat / 2 ^ 14 % 2 ^ 7 ∈ digits_init) := by
  have hb := bar_bits_nonneg b.percent
  rcases hmode with h1 | h2
  · obtain ⟨r, c, l, hr, hc, hl, ⟨hr0, hr1⟩, ⟨hc0, hc1⟩, ⟨hl0, hl1⟩, h⟩ := volts_form b d h1 hm
    have e0 : (r + c * 2 ^ 7 + l * 2 ^ 14 + 2 ^ 22 + 2 ^ 23 + bar_bits b.percent) % 2 ^ 7 = r := by
      omega
    have e7 : (r + c * 2 ^ 7 + l * 2 ^ 14 + 2 ^ 22 + 2 ^ 23 + bar_bits b.percent) / 2 ^ 7 % 2 ^ 7
        = c := by omega
    have e14 : (r + c * 2 ^ 7 + l * 2 ^ 14 + 2 ^ 22 + 2 ^ 23 + bar_bits b.percent) / 2 ^ 14 % 2 ^ 7
        = l := by omega
    refine ⟨_, h, by omega, by omega, fun k hk => testBit_high _ k (by omega) (by omega) hk,
      ?_, ?_, ?_⟩
    · rw [e0]; exact Or.inr (index_mem _ _ hr)
    · rw [e7]; exact Or.inr (index_mem _ _ hc)
    · rw [e14]; exact Or.inr (index_mem _ _ hl)
  · have hne : b.mode ≠ 1 := by rw [h2]; decide
    obtain ⟨r, c, hr, hc, ⟨hr0, hr1⟩, ⟨hc0, hc1⟩, h⟩ := percent_form b d hne hp0 hp100
    have hll : (if b.percent = 100 then (0b0000110 : Int) else 0) =
        if b.percent = 100 then 6 else 0 := rfl
    rw [hll] at h
    have hcc : 0 ≤ (if b.percent < 10 then 0 else c) ∧
        (if b.percent < 10 then 0 else c) < 2 ^ 7 := by
      split_ifs <;> omega
    have hl6 : 0 ≤ (if b.percent = 100 then (6 : Int) else 0) ∧
        (if b.percent = 100 then (6 : Int) else 0) < 2 ^ 7 := by
      split_ifs <;> omega
    have e0 : (r + (if b.percent < 10 then 0 else c) * 2 ^ 7 +
        (if b.percent = 100 then 6 else 0) * 2 ^ 14 + 2 ^ 21 + bar_bits b.percent) % 2 ^ 7 = r := by
      omega
    have e7 : (r + (if b.percent < 10 then 0 else c) * 2 ^ 7 +
        (if b.percent = 100 then 6 else 0) * 2 ^ 14 + 2 ^ 21 + bar_bits b.percent) / 2 ^ 7 % 2 ^ 7
        = (if b.percent < 10 then 0 else c) := by omega
    have e14 : (r + (if b.percent < 10 then 0 else c) * 2 ^ 7 +
        (if b.percent = 100 then 6 else 0) * 2 ^ 14 + 2 ^ 21 + bar_bits b.percent) / 2 ^ 14 % 2 ^ 7
        = (if b.percent = 100 then 6 else 0) := by omega
    refine ⟨_, h, by omega, by omega, fun k hk => testBit_high _ k (by omega) (by omega) hk,
      ?_, ?_, ?_⟩
    · rw [e0]; exact Or.inr (index_mem _ _ hr)
    · rw [e7]
      split_ifs
      · exact Or.inl rfl
      · exact Or.inr (index_mem _ _ hc)
    · rw [e14]
      split_ifs
      · exact Or.inr (by decide)
      · exact Or.inl rfl

theorem set_display_from_batt_no_stray_bits_witness :
    ∃ pat : Int,
      set_display_from_batt ⟨3456, 57, 2⟩ 0 = some (0, pat) ∧
      0 ≤ pat ∧ pat < 2 ^ 29 ∧
      (∀ k : Nat, 29 ≤ k → pat.testBit k = false) ∧
      (pat % 2 ^ 7 = 0 ∨ pat % 2 ^ 7 ∈ digits_init) ∧
      (pat / 2 ^ 7 % 2 ^ 7 = 0 ∨ pat / 2 ^ 7 % 2 ^ 7 ∈ digits_init) ∧
      (pat / 2 ^ 14 % 2 ^ 7 = 0 ∨ pat / 2 ^ 14 % 2 ^ 7 ∈ digits_init) :=
  set_display_from_batt_no_stray_bits ⟨3456, 57, 2⟩ 0 (by decide) (by decide) (by decide)
    (Or.inr (by decide))

/-- C12. Encoder resets its output: for every record and any two prior values
`d1`, `d2` stored at `display`, `set_display_from_batt` has the same outcome,
equal to the outcome of starting from 0; the value it returns is always 0, and
on every record in VOLTS mode with `mlvolts ≥ 0` and every record of another
mode with `percent ≥ 0` it does return, leaving the same pattern for both
prior values. -/
theorem set_display_from_batt_resets (b : batt_t) (d1 d2 : Int) :
    set_display_from_batt b d1 = set_display_from_batt b d2 ∧
    set_display_from_batt b d1 = set_display_from_batt b 0 ∧
    (∀ r pat : Int, set_display_from_batt b d1 = some (r, pat) → r = 0) ∧
    (((b.mode = 1 ∧ 0 ≤ b.mlvolts) ∨ (b.mode ≠ 1 ∧ 0 ≤ b.percent)) →
      ∃ pat : Int, set_display_from_batt b d1 = some (0, pat) ∧
        set_display_from_batt b d2 = some (0, pat)) := by
  refine ⟨set_display_from_batt_prior b d1 d2, set_display_from_batt_prior b d1 0,
    fun r pat h => ?_, fun hdom => ?_⟩
  · rw [set_display_from_batt_eq] at h
    split_ifs at h
    all_goals
      simp only [Option.bind_eq_some] at h
      obtain ⟨_, _, _, _, _, _, h⟩ := h
      exact (Prod.mk.inj (Option.some.inj h)).1.symm
  · obtain ⟨pat, h, -⟩ := bars_in_bounds b d1 hdom
    exact ⟨pat, h, by rw [set_display_from_batt_prior b d2 d1]; exact h⟩

/-- C13. Encoder is total on reachable states: for a voltage reading `v ≥ 0` and
any status, every index `set_display_from_batt` uses on the record produced by
`set_batt_from_ports` lies in `0..9`, both arrays read have ten entries, and the
call returns a pattern. -/
theorem set_display_from_batt_total_on_reachable (v s d d0 : Int) (b0 : batt_t) (hv : 0 ≤ v) :
    ∃ b : batt_t, set_batt_from_ports ⟨v, s, d⟩ b0 = (0, b) ∧
      (0 ≤ Int.tmod (Int.tdiv (b.mlvolts + 5) 10) 10 ∧
        Int.tmod (Int.tdiv (b.mlvolts + 5) 10) 10 ≤ 9) ∧
      (0 ≤ Int.tmod (Int.tdiv b.mlvolts 100) 10 ∧ Int.tmod (Int.tdiv b.mlvolts 100) 10 ≤ 9) ∧
      (0 ≤ Int.tmod (Int.tdiv b.mlvolts 1000) 10 ∧ Int.tmod (Int.tdiv b.mlvolts 1000) 10 ≤ 9) ∧
      (0 ≤ Int.tmod b.percent 10 ∧ Int.tmod b.percent 10 ≤ 9) ∧
      (0 ≤ Int.tmod (Int.tdiv b.percent 10) 10 ∧ Int.tmod (Int.tdiv b.percent 10) 10 ≤ 9) ∧
      (0 ≤ Int.tmod (Int.tdiv b.percent 100) 10 ∧ Int.tmod (Int.tdiv b.percent 100) 10 ≤ 9) ∧
      digits_init.length = 10 ∧ (digits_percent b.percent).length = 10 ∧
      ∃ pat : Int, set_display_from_batt b d0 = some (0, pat) := by
  have h := set_batt_from_ports_ok ⟨v, s, d⟩ b0 hv
  refine ⟨_, h, ?_⟩
  have hm : (0 : Int) ≤ v / 2 := by omega
  have hp : (0 : Int) ≤ (if v / 2 < 3000 then 0 else if v / 2 > 3800 then 100
      else (v / 2 - 3000) / 8) := by
    split_ifs <;> omega
  show (0 ≤ Int.tmod (Int.tdiv (v / 2 + 5) 10) 10 ∧ _) ∧ _
  generalize (if v / 2 < 3000 then (0 : Int) else if v / 2 > 3800 then 100
      else (v / 2 - 3000) / 8) = p at hp ⊢
  generalize (v / 2) = m at hm ⊢
  have e1 := c_div_mod (m + 5) 10 (by omega) (by decide)
  have e2 := c_div_mod m 100 hm (by decide)
  have e3 := c_div_mod m 1000 hm (by decide)
  have e4 : Int.tmod p 10 = p % 10 := Int.tmod_eq_emod hp (by decide)
  have e5 := c_div_mod p 10 hp (by decide)
  have e6 := c_div_mod p 100 hp (by decide)
  rw [e1, e2, e3, e4, e5, e6]
  refine ⟨by omega, by omega, by omega, by omega, by omega, by omega, rfl, ?_, ?_⟩
  · unfold digits_percent
    rw [List.length_set]
    rfl
  · have hdom : ((if Int.land s 4 ≠ 0 then (2 : Int) else 1) = 1 ∧ 0 ≤ m) ∨
        ((if Int.land s 4 ≠ 0 then (2 : Int) else 1) ≠ 1 ∧ 0 ≤ p) := by
      split_ifs
      · exact Or.inr ⟨by decide, hp⟩
      · exact Or.inl ⟨rfl, hm⟩
    obtain ⟨pat, hpat, -⟩ := bars_in_bounds ⟨m, p, if Int.land s 4 ≠ 0 then 2 else 1⟩ d0 hdom
    exact ⟨pat, hpat⟩

theorem set_display_from_batt_total_on_reachable_witness :
    ∃ b : batt_t, set_batt_from_ports ⟨7599, 4, 0⟩ ⟨0, 0, 0⟩ = (0, b) ∧
      (0 ≤ Int.tmod (Int.tdiv (b.mlvolts + 5) 10) 10 ∧
        Int.tmod (Int.tdiv (b.mlvolts + 5) 10) 10 ≤ 9) ∧
      (0 ≤ Int.tmod (Int.tdiv b.mlvolts 100) 10 ∧ Int.tmod (Int.tdiv b.mlvolts 100) 10 ≤ 9) ∧
      (0 ≤ Int.tmod (Int.tdiv b.mlvolts 1000) 10 ∧ Int.tmod (Int.tdiv b.mlvolts 1000) 10 ≤ 9) ∧
      (0 ≤ Int.tmod b.percent 10 ∧ Int.tmod b.percent 10 ≤ 9) ∧
      (0 ≤ Int.tmod (Int.tdiv b.percent 10) 10 ∧ Int.tmod (Int.tdiv b.percent 10) 10 ≤ 9) ∧
      (0 ≤ Int.tmod (Int.tdiv b.percent 100) 10 ∧ Int.tmod (Int.tdiv b.percent 100) 10 ≤ 9) ∧
      digits_init.length = 10 ∧ (digits_percent b.percent).length = 10 ∧
      ∃ pat : Int, set_display_from_batt b 0 = some (0, pat) :=
  set_display_from_batt_total_on_reachable 7599 4 0 0 ⟨0, 0, 0⟩ (by decide)

/-- C14. Percent is monotone in the reading: for voltage readings
`0 ≤ v1 ≤ v2` (and any status values and prior records) the percent produced by
`set_batt_from_ports` for `v1` is at most the percent produced for `v2`. -/
theorem set_batt_from_ports_percent_mono (v1 v2 s1 s2 d1 d2 : Int) (b1 b2 : batt_t)
    (h1 : 0 ≤ v1) (h12 : v1 ≤ v2) :
    (set_batt_from_ports ⟨v1, s1, d1⟩ b1).2.percent ≤
      (set_batt_from_ports ⟨v2, s2, d2⟩ b2).2.percent := by
  rw [set_batt_from_ports_ok ⟨v1, s1, d1⟩ b1 h1,
    set_batt_from_ports_ok ⟨v2, s2, d2⟩ b2 (le_trans h1 h12)]
  show (if v1 / 2 < 3000 then (0 : Int) else if v1 / 2 > 3800 then 100 else (v1 / 2 - 3000) / 8) ≤
    (if v2 / 2 < 3000 then (0 : Int) else if v2 / 2 > 3800 then 100 else (v2 / 2 - 3000) / 8)
  split_ifs <;> omega

theorem set_batt_from_ports_percent_mono_witness :
    (set_batt_from_ports ⟨6400, 0, 0⟩ ⟨0, 0, 0⟩).2.percent ≤
      (set_batt_from_ports ⟨7000, 4, 9⟩ ⟨1, 1, 1⟩).2.percent :=
  set_batt_from_ports_percent_mono 6400 7000 0 4 0 9 ⟨0, 0, 0⟩ ⟨1, 1, 1⟩ (by decide) (by decide)

/-! ## Bars -/

theorem lit_bars_of_thresholds (pat p : Int)
    (h24 : pat.testBit 24 = true ↔ p > 4) (h25 : pat.testBit 25 = true ↔ p > 29)
    (h26 : pat.testBit 26 = true ↔ p > 49) (h27 : pat.testBit 27 = true ↔ p > 69)
    (h28 : pat.testBit 28 = true ↔ p > 89) :
    lit_bars pat = (if p > 4 then 1 else 0) + (if p > 29 then 1 else 0) +
      (if p > 49 then 1 else 0) + (if p > 69 then 1 else 0) + (if p > 89 then 1 else 0) := by
  unfold lit_bars
  simp only [h24, h25, h26, h27, h28]

theorem index_bounds (i g : Int) (h : index digits_init i = some g) : 0 ≤ i ∧ i < 10 := by
  unfold index at h
  split_ifs at h with h0
  have hlt := (List.getElem?_eq_some.mp h).1
  have hlen : digits_init.length = 10 := rfl
  rw [hlen] at hlt
  omega

theorem index_inj (i j g : Int) (hi : index digits_init i = some g)
    (hj : index digits_init j = some g) : i = j := by
  obtain ⟨i0, i9⟩ := index_bounds i g hi
  obtain ⟨j0, j9⟩ := index_bounds j g hj
  rw [← hj] at hi
  clear hj
  revert hi
  interval_cases i <;> interval_cases j <;> decide

/-- C16. VOLTS-mode rounding does not carry: for `mode = 1` and `mlvolts ≥ 0` the
three digit fields (left, center, right) hold the glyphs of the three low
decimal digits of the rounded value `(mlvolts + 5) / 10` if and only if
`mlvolts % 100 < 95`; when `mlvolts % 100 ≥ 95` the right field holds the glyph
of 0 and the center field the glyph of a digit one less (mod 10) than that of
the rounded value.  Example: `mlvolts = 3795` shows the glyphs of 3, 7, 0 although
the rounded value is 380. -/
theorem set_display_from_batt_no_carry (b : batt_t) (d : Int)
    (hmode : b.mode = 1) (hm : 0 ≤ b.mlvolts) :
    (∃ pat : Int,
      set_display_from_batt b d = some (0, pat) ∧
      ((index digits_init ((b.mlvolts + 5) / 10 / 100 % 10) = some (pat / 2 ^ 14 % 2 ^ 7) ∧
        index digits_init ((b.mlvolts + 5) / 10 / 10 % 10) = some (pat / 2 ^ 7 % 2 ^ 7) ∧
        index digits_init ((b.mlvolts + 5) / 10 % 10) = some (pat % 2 ^ 7)) ↔
          b.mlvolts % 100 < 95) ∧
      (95 ≤ b.mlvolts % 100 →
        index digits_init 0 = some (pat % 2 ^ 7) ∧
        ∃ c : Int, 0 ≤ c ∧ c ≤ 9 ∧ index digits_init c = some (pat / 2 ^ 7 % 2 ^ 7) ∧
          (c + 1) % 10 = (b.mlvolts + 5) / 10 / 10 % 10)) ∧
    (((3795 : Int) + 5) / 10 = 380 ∧
      index digits_init 3 = some 0b1001111 ∧
      index digits_init 7 = some 0b0000111 ∧
      index digits_init 0 = some 0b0111111 ∧
      set_batt_from_ports ⟨7590, 0, 0⟩ ⟨0, 0, 0⟩ = (0, ⟨3795, 99, 1⟩) ∧
      batt_update ⟨7590, 0, 0⟩ =
        some (0, ⟨7590, 0, 0b0111111 + 0b0000111 * 2 ^ 7 + 0b1001111 * 2 ^ 14 + 2 ^ 22 + 2 ^ 23 +
          (2 ^ 24 + 2 ^ 25 + 2 ^ 26 + 2 ^ 27 + 2 ^ 28)⟩)) := by
  refine ⟨?_, by decide, by decide, by decide, by decide, by decide, by decide⟩
  obtain ⟨r, c, l, hr, hc, hl, ⟨hr0, hr1⟩, ⟨hc0, hc1⟩, ⟨hl0, hl1⟩, h⟩ := volts_form b d hmode hm
  have hb := bar_bits_nonneg b.percent
  have e0 : (r + c * 2 ^ 7 + l * 2 ^ 14 + 2 ^ 22 + 2 ^ 23 + bar_bits b.percent) % 2 ^ 7 = r := by
    omega
  have e7 : (r + c * 2 ^ 7 + l * 2 ^ 14 + 2 ^ 22 + 2 ^ 23 + bar_bits b.percent) / 2 ^ 7 % 2 ^ 7
      = c := by omega
  have e14 : (r + c * 2 ^ 7 + l * 2 ^ 14 + 2 ^ 22 + 2 ^ 23 + bar_bits b.percent) / 2 ^ 14 % 2 ^ 7
      = l := by omega
  refine ⟨_, h, ?_, ?_⟩
  · rw [e0, e7, e14]
    constructor
    · rintro ⟨-, hc2, -⟩
      have := index_inj _ _ _ hc2 hc
      omega
    · intro h95
      have q1 : (b.mlvolts + 5) / 10 / 100 % 10 = b.mlvolts / 1000 % 10 := by omega
      have q2 : (b.mlvolts + 5) / 10 / 10 % 10 = b.mlvolts / 100 % 10 := by omega
      rw [q1, q2]
      exact ⟨hl, hc, hr⟩
  · intro h95
    rw [e0, e7]
    have q0 : (b.mlvolts + 5) / 10 % 10 = 0 := by omega
    rw [q0] at hr
    exact ⟨hr, b.mlvolts / 100 % 10, by omega, by omega, hc, by omega⟩

theorem set_display_from_batt_no_carry_witness :
    ∃ pat : Int,
      set_display_from_batt ⟨3795, 99, 1⟩ 0 = some (0, pat) ∧
      ((index digits_init (((3795 : Int) + 5) / 10 / 100 % 10) = some (pat / 2 ^ 14 % 2 ^ 7) ∧
        index digits_init (((3795 : Int) + 5) / 10 / 10 % 10) = some (pat / 2 ^ 7 % 2 ^ 7) ∧
        index digits_init (((3795 : Int) + 5) / 10 % 10) = some (pat % 2 ^ 7)) ↔
          (3795 : Int) % 100 < 95) ∧
      (95 ≤ (3795 : Int) % 100 →
        index digits_init 0 = some (pat % 2 ^ 7) ∧
        ∃ c : Int, 0 ≤ c ∧ c ≤ 9 ∧ index digits_init c = some (pat / 2 ^ 7 % 2 ^ 7) ∧
          (c + 1) % 10 = ((3795 : Int) + 5) / 10 / 10 % 10) :=
  (set_display_from_batt_no_carry ⟨3795, 99, 1⟩ 0 (by decide) (by decide)).1

/-- C19. Glyph table is well-formed: the ten entries of `digits` are pairwise
distinct, each is non-zero and below `2 ^ 7`; so a glyph shifted to offset 0, 7 or
14 stays inside its own 7-bit field, a glyph is never the blank field 0, and the
digit is recovered uniquely from the glyph. -/
theorem digits_init_well_formed :
    digits_init.length = 10 ∧ digits_init.Nodup ∧
    (∀ g ∈ digits_init, g ≠ 0 ∧ 0 ≤ g ∧ g < 2 ^ 7) ∧
    (∀ g ∈ digits_init,
      g / 2 ^ 7 = 0 ∧
      (g <<< (7 : Int)) % 2 ^ 7 = 0 ∧ (g <<< (7 : Int)) / 2 ^ 14 = 0 ∧
        (g <<< (7 : Int)) / 2 ^ 7 % 2 ^ 7 = g ∧
      (g <<< (14 : Int)) % 2 ^ 14 = 0 ∧ (g <<< (14 : Int)) / 2 ^ 21 = 0 ∧
        (g <<< (14 : Int)) / 2 ^ 14 % 2 ^ 7 = g) ∧
    (∀ i : Int, 0 ≤ i → i ≤ 9 → ∃ g, index digits_init i = some g ∧ g ∈ digits_init) ∧
    (∀ i j g : Int, index digits_init i = some g → index digits_init j = some g → i = j) := by
  refine ⟨rfl, by decide, by decide, by decide, fun i i0 i9 => ?_, index_inj⟩
  obtain ⟨g, hg, -⟩ := index_digits i i0 (by omega)
  exact ⟨g, hg, index_mem i g hg⟩

/-! ## End-to-end and independence properties -/

/-- What `batt_update` does for a non-negative reading, given the pattern the
encoder writes for the converted record. -/
theorem batt_update_ok (v s d pat : Int) (b : batt_t)
    (hb : set_batt_from_ports ⟨v, s, d⟩ ⟨0, 0, 0⟩ = (0, b))
    (hpat : set_display_from_batt b d = some (0, pat)) :
    batt_update ⟨v, s, d⟩ = some (0, ⟨v, s, pat⟩) := by
  unfold batt_update
  simp only [hb]
  simp only [ne_eq, not_true_eq_false, if_false]
  simp only [hpat]
  rfl

/-- The display after `batt_update` for a non-negative reading, with its bar bits
given by the thresholds on the converted percent. -/
theorem batt_update_bars (v s d : Int) (hv : 0 ≤ v) :
    ∃ pat : Int,
      batt_update ⟨v, s, d⟩ = some (0, ⟨v, s, pat⟩) ∧
      (pat.testBit 24 = true ↔ (set_batt_from_ports ⟨v, s, d⟩ ⟨0, 0, 0⟩).2.percent > 4) ∧
      (pat.testBit 25 = true ↔ (set_batt_from_ports ⟨v, s, d⟩ ⟨0, 0, 0⟩).2.percent > 29) ∧
      (pat.testBit 26 = true ↔ (set_batt_from_ports ⟨v, s, d⟩ ⟨0, 0, 0⟩).2.percent > 49) ∧
      (pat.testBit 27 = true ↔ (set_batt_from_ports ⟨v, s, d⟩ ⟨0, 0, 0⟩).2.percent > 69) ∧
      (pat.testBit 28 = true ↔ (set_batt_from_ports ⟨v, s, d⟩ ⟨0, 0, 0⟩).2.percent > 89) := by
  have h := set_batt_from_ports_ok ⟨v, s, d⟩ ⟨0, 0, 0⟩ hv
  have hm : (0 : Int) ≤ v / 2 := by omega
  have hp : (0 : Int) ≤ (if v / 2 < 3000 then 0 else if v / 2 > 3800 then 100
      else (v / 2 - 3000) / 8) := by
    split_ifs <;> omega
  have hdom : ((set_batt_from_ports ⟨v, s, d⟩ ⟨0, 0, 0⟩).2.mode = 1 ∧
        0 ≤ (set_batt_from_ports ⟨v, s, d⟩ ⟨0, 0, 0⟩).2.mlvolts) ∨
      ((set_batt_from_ports ⟨v, s, d⟩ ⟨0, 0, 0⟩).2.mode ≠ 1 ∧
        0 ≤ (set_batt_from_ports ⟨v, s, d⟩ ⟨0, 0, 0⟩).2.percent) := by
    rw [h]
    by_cases hmode : (if Int.land s 4 ≠ 0 then (2 : Int) else 1) = 1
    · exact Or.inl ⟨hmode, hm⟩
    · exact Or.inr ⟨hmode, hp⟩
  obtain ⟨pat, hpat, hbits⟩ := bars_in_bounds _ d hdom
  refine ⟨pat, batt_update_ok v s d pat _ ?_ hpat, hbits⟩
  rw [h]

theorem converter_percent_le (v1 v2 s1 s2 d1 d2 : Int) (b1 b2 : batt_t)
    (h1 : 0 ≤ v1) (h12 : v1 ≤ v2) :
    (set_batt_from_ports ⟨v1, s1, d1⟩ b1).2.percent ≤
      (set_batt_from_ports ⟨v2, s2, d2⟩ b2).2.percent := by
  rw [set_batt_from_ports_ok ⟨v1, s1, d1⟩ b1 h1,
    set_batt_from_ports_ok ⟨v2, s2, d2⟩ b2 (le_trans h1 h12)]
  show (if v1 / 2 < 3000 then (0 : Int) else if v1 / 2 > 3800 then 100 else (v1 / 2 - 3000) / 8) ≤
    (if v2 / 2 < 3000 then (0 : Int) else if v2 / 2 > 3800 then 100 else (v2 / 2 - 3000) / 8)
  split_ifs <;> omega

/-- C17. End-to-end bar monotonicity: for voltage readings `0 ≤ v1 ≤ v2` and any
status and prior display values, `batt_update` succeeds on both, every bar bit
(24-28) lit after the update with `v1` is lit after the update with `v2`, and
the number of lit bars for `v2` is at least the number for `v1`. -/
theorem batt_update_bars_mono (v1 v2 s1 s2 d1 d2 : Int) (h1 : 0 ≤ v1) (h12 : v1 ≤ v2) :
    ∃ pat1 pat2 : Int,
      batt_update ⟨v1, s1, d1⟩ = some (0, ⟨v1, s1, pat1⟩) ∧
      batt_update ⟨v2, s2, d2⟩ = some (0, ⟨v2, s2, pat2⟩) ∧
      (∀ k : Nat, 24 ≤ k → k ≤ 28 → pat1.testBit k = true → pat2.testBit k = true) ∧
      lit_bars pat1 ≤ lit_bars pat2 := by
  obtain ⟨pat1, u1, a24, a25, a26, a27, a28⟩ := batt_update_bars v1 s1 d1 h1
  obtain ⟨pat2, u2, b24, b25, b26, b27, b28⟩ := batt_update_bars v2 s2 d2 (le_trans h1 h12)
  have hle := converter_percent_le v1 v2 s1 s2 d1 d2 ⟨0, 0, 0⟩ ⟨0, 0, 0⟩ h1 h12
  have l1 := lit_bars_of_thresholds pat1 _ a24 a25 a26 a27 a28
  have l2 := lit_bars_of_thresholds pat2 _ b24 b25 b26 b27 b28
  refine ⟨pat1, pat2, u1, u2, fun k hk1 hk2 hset => ?_, ?_⟩
  · have hk : k = 24 ∨ k = 25 ∨ k = 26 ∨ k = 27 ∨ k = 28 := by omega
    rcases hk with rfl | rfl | rfl | rfl | rfl
    · exact b24.mpr (by have := a24.mp hset; omega)
    · exact b25.mpr (by have := a25.mp hset; omega)
    · exact b26.mpr (by have := a26.mp hset; omega)
    · exact b27.mpr (by have := a27.mp hset; omega)
    · exact b28.mpr (by have := a28.mp hset; omega)
  · rw [l1, l2]
    generalize (set_batt_from_ports ⟨v1, s1, d1⟩ ⟨0, 0, 0⟩).2.percent = p1 at hle ⊢
    generalize (set_batt_from_ports ⟨v2, s2, d2⟩ ⟨0, 0, 0⟩).2.percent = p2 at hle ⊢
    have t : ∀ c : Int, (if p1 > c then 1 else 0) ≤ (if p2 > c then (1 : Nat) else 0) := by
      intro c
      split_ifs <;> omega
    exact Nat.add_le_add (Nat.add_le_add (Nat.add_le_add (Nat.add_le_add (t 4) (t 29)) (t 49))
      (t 69)) (t 89)

theorem batt_update_bars_mono_witness :
    ∃ pat1 pat2 : Int,
      batt_update ⟨6400, 0, 5⟩ = some (0, ⟨6400, 0, pat1⟩) ∧
      batt_update ⟨7000, 4, 9⟩ = some (0, ⟨7000, 4, pat2⟩) ∧
      (∀ k : Nat, 24 ≤ k → k ≤ 28 → pat1.testBit k = true → pat2.testBit k = true) ∧
      lit_bars pat1 ≤ lit_bars pat2 :=
  batt_update_bars_mono 6400 7000 0 4 5 9 (by decide) (by decide)

theorem testBit_low (x y : Int) (k : Nat) (hx : 0 ≤ x) (hy : 0 ≤ y)
    (h : x % 2 ^ 24 = y % 2 ^ 24) (hk : k < 24) : x.testBit k = y.testBit k := by
  obtain ⟨m, rfl⟩ := Int.eq_ofNat_of_zero_le hx
  obtain ⟨n, rfl⟩ := Int.eq_ofNat_of_zero_le hy
  have h2 : m % 2 ^ 24 = n % 2 ^ 24 := by exact_mod_cast h
  show Nat.testBit m k = Nat.testBit n k
  have e1 := Nat.testBit_mod_two_pow m 24 k
  have e2 := Nat.testBit_mod_two_pow n 24 k
  rw [h2] at e1
  rw [e1] at e2
  simpa [hk] using e2

/-- C18. Field independence: two records in PERCENT mode (`mode = 2`) with equal
`percent` have the same outcome of `set_display_from_batt` whatever their
`mlvolts`, a written pattern when `percent ≥ 0`; two records in VOLTS mode
(`mode = 1`) with equal `mlvolts ≥ 0` get patterns that agree on bits 0-23
whatever their `percent`. -/
theorem set_display_from_batt_field_independence (b1 b2 : batt_t) (d1 d2 : Int) :
    (b1.mode = 2 → b2.mode = 2 → b1.percent = b2.percent →
      set_display_from_batt b1 d1 = set_display_from_batt b2 d2 ∧
      (0 ≤ b1.percent → ∃ pat : Int, set_display_from_batt b1 d1 = some (0, pat) ∧
        set_display_from_batt b2 d2 = some (0, pat))) ∧
    (b1.mode = 1 → b2.mode = 1 → b1.mlvolts = b2.mlvolts → 0 ≤ b1.mlvolts →
      ∃ pat1 pat2 : Int, set_display_from_batt b1 d1 = some (0, pat1) ∧
        set_display_from_batt b2 d2 = some (0, pat2) ∧
        pat1 % 2 ^ 24 = pat2 % 2 ^ 24 ∧
        ∀ k : Nat, k < 24 → pat1.testBit k = pat2.testBit k) := by
  constructor
  · intro m1 m2 hp
    have n1 : b1.mode ≠ 1 := by rw [m1]; decide
    have n2 : b2.mode ≠ 1 := by rw [m2]; decide
    have heq : set_display_from_batt b1 d1 = set_display_from_batt b2 d2 := by
      rw [set_display_from_batt_eq b1 d1, set_display_from_batt_eq b2 d2, if_neg n1, if_neg n2,
        hp]
    refine ⟨heq, fun h0 => ?_⟩
    obtain ⟨pat, h, -⟩ := bars_in_bounds b1 d1 (Or.inr ⟨n1, h0⟩)
    exact ⟨pat, h, by rw [← heq]; exact h⟩
  · intro m1 m2 hm h0
    obtain ⟨r1, c1, l1, hr1, hc1, hl1, ⟨r10, r11⟩, ⟨c10, c11⟩, ⟨l10, l11⟩, u1⟩ :=
      volts_form b1 d1 m1 h0
    obtain ⟨r2, c2, l2, hr2, hc2, hl2, ⟨r20, r21⟩, ⟨c20, c21⟩, ⟨l20, l21⟩, u2⟩ :=
      volts_form b2 d2 m2 (by rw [← hm]; exact h0)
    rw [← hm] at hr2 hc2 hl2
    have er : r2 = r1 := Option.some.inj (hr2.symm.trans hr1)
    have ec : c2 = c1 := Option.some.inj (hc2.symm.trans hc1)
    have el : l2 = l1 := Option.some.inj (hl2.symm.trans hl1)
    subst er ec el
    have g1 := bar_bits_nonneg b1.percent
    have g2 := bar_bits_nonneg b2.percent
    have hmod : (r2 + c2 * 2 ^ 7 + l2 * 2 ^ 14 + 2 ^ 22 + 2 ^ 23 + bar_bits b1.percent) % 2 ^ 24 =
        (r2 + c2 * 2 ^ 7 + l2 * 2 ^ 14 + 2 ^ 22 + 2 ^ 23 + bar_bits b2.percent) % 2 ^ 24 := by
      omega
    exact ⟨_, _, u1, u2, hmod, fun k hk => testBit_low _ _ k (by omega) (by omega) hmod hk⟩

theorem set_display_from_batt_field_independence_witness :
    set_display_from_batt ⟨3000, 57, 2⟩ 0 = set_display_from_batt ⟨3999, 57, 2⟩ 1 ∧
    ((0 : Int) ≤ 57 → ∃ pat : Int, set_display_from_batt ⟨3000, 57, 2⟩ 0 = some (0, pat) ∧
      set_display_from_batt ⟨3999, 57, 2⟩ 1 = some (0, pat)) :=
  (set_display_from_batt_field_independence ⟨3000, 57, 2⟩ ⟨3999, 57, 2⟩ 0 1).1
    (by decide) (by decide) (by decide)
